import Mathlib

/-
Verification of the Speedy RSVP reader core.

Rust strings are modelled as lists of characters (`List Char`), matching the
pervasive use of `str::chars()` in the source.  64-bit IEEE floating point
values are modelled as exact rationals together with an explicit
round-to-nearest-even operation on the 53-bit significand grid; all floating
point values arising in this program are positive normal numbers far from
overflow and underflow, where that model is exact.
-/

namespace Speedy

/-- Token produced by the tokenizer, from src/reading/token.rs. -/
structure Token where
  text : List Char
  punctuation : List Char
  is_sentence_start : Bool
deriving DecidableEq, Repr

/-- From src/reading/timing.rs: a character terminating a sentence. -/
def is_sentence_terminator (c : Char) : Bool :=
  c = '.' || c = '?' || c = '!'

/-- From src/reading/timing.rs. -/
def is_comma (c : Char) : Bool :=
  c = ','

/-- The loop condition of extract_punctuation in src/reading/timing.rs:
trailing characters are peeled off while they are terminators or commas. -/
def is_trailing_mark (c : Char) : Bool :=
  is_sentence_terminator c || is_comma c

/-- From src/reading/timing.rs: pop trailing mark characters off the word,
then reverse them back into original order.  Popping from the end of the
character vector while the mark test holds is the same as taking the longest
mark run at the front of the reversed list. -/
def extract_punctuation (word : List Char) : List Char × List Char :=
  if word = [] then ([], [])
  else
    ((word.reverse.dropWhile is_trailing_mark).reverse,
     (word.reverse.takeWhile is_trailing_mark).reverse)

/-- The fixed abbreviation table of src/reading/timing.rs. -/
def abbreviation_table : List (List Char) :=
  ["Dr.", "Mr.", "Mrs.", "Ms.", "St.", "Jr.", "e.g.", "i.e.", "vs.", "etc."].map
    String.toList

/-- From src/reading/timing.rs. -/
def is_abbreviation (word : List Char) : Bool :=
  abbreviation_table.contains word

/-- From src/reading/timing.rs: exactly two parts around a single dot, both
nonempty and all ASCII digits. -/
def is_decimal_number (word : List Char) : Bool :=
  match word.splitOn '.' with
  | [p0, p1] =>
      !p0.isEmpty && !p1.isEmpty && p0.all Char.isDigit && p1.all Char.isDigit
  | _ => false

/-- From src/reading/timing.rs: sentence-boundary detection.  The first token
(no previous token) is always a sentence start. -/
def detect_sentence_boundary (prev_token : Option Token)
    (current_word : List Char) : Bool :=
  match prev_token with
  | none => true
  | some prev =>
    if prev.punctuation.contains '\n' then true
    else if !(prev.punctuation.any fun p => p = '.' || p = '?' || p = '!') then
      false
    else
      let full_prev_word := prev.text ++ prev.punctuation
      if is_abbreviation full_prev_word then false
      else if is_decimal_number full_prev_word then false
      else
        match current_word.head? with
        | some c => c.isUpper
        | none => false

/-- The Unicode White_Space property, as used by Rust char::is_whitespace
(the word splitter of the tokenizer splits on these). -/
def is_rust_whitespace (c : Char) : Bool :=
  let n := c.toNat
  (0x09 ≤ n && n ≤ 0x0D) || n = 0x20 || n = 0x85 || n = 0xA0 || n = 0x1680 ||
  (0x2000 ≤ n && n ≤ 0x200A) || n = 0x2028 || n = 0x2029 || n = 0x202F ||
  n = 0x205F || n = 0x3000

/-- Rust str::split_whitespace: maximal runs of non-whitespace characters. -/
def split_whitespace (l : List Char) : List (List Char) :=
  (l.splitOnP is_rust_whitespace).filter (· ≠ [])

/-- Strip one trailing carriage return (part of Rust str::lines). -/
def strip_cr (l : List Char) : List Char :=
  if l.getLast? = some '\r' then l.dropLast else l

/-- Rust str::lines: split on newline characters; a carriage return directly
before a newline is also removed; a final line terminator produces no extra
empty line; the empty string yields no lines. -/
def rust_lines (s : List Char) : List (List Char) :=
  if s = [] then []
  else
    let parts := s.splitOn '\n'
    let body := (parts.dropLast.map strip_cr)
    match parts.getLast? with
    | some [] => body
    | some l => body ++ [l]
    | none => body

/-- One iteration of the word loop of tokenize_text in src/reading/timing.rs. -/
def push_word (tokens : List Token) (word : List Char) : List Token :=
  if word = [] then tokens
  else
    let tp := extract_punctuation word
    tokens ++ [⟨tp.1, tp.2, detect_sentence_boundary tokens.getLast? word⟩]

/-- The synthetic newline token appended after each line by tokenize_text. -/
def push_newline_token (tokens : List Token) : List Token :=
  tokens ++ [⟨[], ['\n'], detect_sentence_boundary tokens.getLast? []⟩]

/-- One iteration of the line loop of tokenize_text. -/
def process_line (tokens : List Token) (line : List Char) : List Token :=
  push_newline_token ((split_whitespace line).foldl push_word tokens)

/-- From src/reading/timing.rs: tokenize_text.  The final trailing synthetic
newline token, if any, is popped once at the end. -/
def tokenize_text (s : List Char) : List Token :=
  let tokens := (rust_lines s).foldl process_line []
  match tokens.getLast? with
  | some t => if t.punctuation = ['\n'] && t.text = [] then tokens.dropLast else tokens
  | none => tokens

/-- From src/engine/ovp.rs: anchor index from the word's character count. -/
def calculate_anchor_position (word : List Char) : Nat :=
  let len := word.length
  if len ≤ 1 then 0
  else if len ≤ 5 then 1
  else if len ≤ 9 then 2
  else 3

/-- An exact nonnegative rational num/den (den positive at every use site),
holding the exact value of a 64-bit floating point quantity.  Fractions are
kept unreduced so that every operation is plain natural-number arithmetic. -/
structure Frac where
  num : Nat
  den : Nat
deriving DecidableEq, Repr

/-- The rational value of a fraction. -/
def Frac.val (f : Frac) : ℚ :=
  (f.num : ℚ) / (f.den : ℚ)

/-- Exact product. -/
def Frac.mul (a b : Frac) : Frac :=
  ⟨a.num * b.num, a.den * b.den⟩

/-- Comparison by cross multiplication. -/
def Frac.le (a b : Frac) : Bool :=
  decide (a.num * b.den ≤ b.num * a.den)

/-- Rust f64::max on nonnegative finite values. -/
def Frac.fmax (a b : Frac) : Frac :=
  if Frac.le a b then b else a

/-- Truncation toward zero, the semantics of the Rust cast from a
nonnegative f64 to u64. -/
def Frac.floor (f : Frac) : Nat :=
  f.num / f.den

/-- Round half away from zero, the semantics of Rust f64::round on
nonnegative values: floor of num/den + 1/2. -/
def Frac.round (f : Frac) : Nat :=
  (2 * f.num + f.den) / (2 * f.den)

/-- Floor of the base-two logarithm, by structural recursion on a fuel
argument (so that it evaluates inside the kernel). -/
def log2_aux : Nat → Nat → Nat
  | 0, _ => 0
  | fuel + 1, n => if n < 2 then 0 else 1 + log2_aux fuel (n / 2)

/-- Floor of the base-two logarithm of a positive number. -/
def log2_floor (n : Nat) : Nat :=
  log2_aux n n

/-- Ceiling of the base-two logarithm, fuel-based like log2_floor. -/
def clog2_aux : Nat → Nat → Nat
  | 0, _ => 0
  | fuel + 1, n => if n ≤ 1 then 0 else 1 + clog2_aux fuel ((n + 1) / 2)

/-- Ceiling of the base-two logarithm of a positive number. -/
def clog2 (n : Nat) : Nat :=
  clog2_aux n n

/-- Round the ratio p/q (q positive) to the nearest integer, ties going to
the even neighbour - the IEEE 754 default rounding used for the significand. -/
def round_ties_even (p q : Nat) : Nat :=
  let f := p / q
  let r := p % q
  if 2 * r < q then f
  else if q < 2 * r then f + 1
  else if f % 2 = 0 then f else f + 1

/-- Round an exact nonnegative rational to the nearest IEEE 754 double:
find the binade exponent e with 2 ^ e ≤ value < 2 ^ (e + 1), then round the
value onto the grid of multiples of 2 ^ (e - 52) with ties to even.  Exact
for the positive normal range; this program only produces values between
2 ^ -4 and 2 ^ 13, far from overflow and subnormals. -/
def f64_round_nearest (f : Frac) : Frac :=
  if f.num = 0 then ⟨0, 1⟩
  else if f.den ≤ f.num then
    let e := log2_floor (f.num / f.den)
    ⟨round_ties_even (f.num * 2 ^ 52) (f.den * 2 ^ e) * 2 ^ e, 2 ^ 52⟩
  else
    let e := clog2 ((f.den + f.num - 1) / f.num)
    ⟨round_ties_even (f.num * 2 ^ (52 + e)) f.den, 2 ^ (52 + e)⟩

/-- f64 multiplication: exact product, rounded to nearest. -/
def fmul (a b : Frac) : Frac :=
  f64_round_nearest (Frac.mul a b)

/-- f64 division: exact quotient, rounded to nearest. -/
def fdiv (a b : Frac) : Frac :=
  f64_round_nearest ⟨a.num * b.den, a.den * b.num⟩

/-- The f64 literal 1.15 (not exactly representable; the nearest double is
slightly below 23/20). -/
def f64_lit_115 : Frac :=
  f64_round_nearest ⟨23, 20⟩

/-- From src/reading/timing.rs: (60000.0 / wpm.max(1) as f64).round() as u64.
The rounded quotient is integral and far below 2 ^ 53, so the final cast is
exact. -/
def wpm_to_milliseconds (wpm : Nat) : Nat :=
  (fdiv ⟨60000, 1⟩ ⟨max wpm 1, 1⟩).round

/-- From src/reading/timing.rs: the fixed multiplier table (1.5 = 3/2 and the
whole numbers are exactly representable doubles). -/
def get_punctuation_multiplier (p : Char) : Frac :=
  if p = '.' then ⟨3, 1⟩
  else if p = ',' then ⟨3, 2⟩
  else if p = '?' then ⟨3, 1⟩
  else if p = '!' then ⟨3, 1⟩
  else if p = '\n' then ⟨4, 1⟩
  else ⟨1, 1⟩

/-- From src/reading/timing.rs: fold of f64::max over the mapped multipliers,
starting from 1.0. -/
def get_max_punctuation_multiplier (l : List Char) : Frac :=
  (l.map get_punctuation_multiplier).foldl Frac.fmax ⟨1, 1⟩

/-- From src/reading/timing.rs. -/
def get_word_length_penalty (word : List Char) (penalty_multiplier : Frac) : Frac :=
  if 10 < word.length then penalty_multiplier else ⟨1, 1⟩

/-- From src/reading/timing.rs: calculate_word_delay.  The base delay is an
exact small integer, the product is computed in f64 and finally rounded to
the nearest millisecond (f64::round, then an exact cast). -/
def calculate_word_delay (word : List Char) (punctuation : List Char)
    (wpm : Nat) (penalty_multiplier : Frac) : Nat :=
  let base_delay : Frac := ⟨wpm_to_milliseconds wpm, 1⟩
  let m := get_max_punctuation_multiplier punctuation
  let p := get_word_length_penalty word penalty_multiplier
  (fmul (fmul base_delay m) p).round

/-- From src/engine/config.rs: TimingConfig (the inclusive wpm range is
modelled by its two endpoints). -/
structure TimingConfig where
  wpm : Nat
  wpm_min : Nat
  wpm_max : Nat
  long_word_threshold : Nat
  long_word_penalty : Frac
  period_multiplier : Frac
  comma_multiplier : Frac
  question_multiplier : Frac
  exclamation_multiplier : Frac
  newline_multiplier : Frac
deriving DecidableEq, Repr

/-- From src/engine/config.rs: the Default instance (wpm 300, range 50..=1000,
threshold 10, penalty 1.15, multipliers 3.0/1.5/3.0/3.0/4.0). -/
def TimingConfig.default : TimingConfig :=
  ⟨300, 50, 1000, 10, f64_lit_115, ⟨3, 1⟩, ⟨3, 2⟩, ⟨3, 1⟩, ⟨3, 1⟩, ⟨4, 1⟩⟩

/-- The match on punctuation characters inside calculate_token_duration in
src/reading/state.rs, reading multipliers from the configuration. -/
def config_multiplier (c : TimingConfig) (p : Char) : Frac :=
  if p = '.' then c.period_multiplier
  else if p = '?' then c.question_multiplier
  else if p = '!' then c.exclamation_multiplier
  else if p = ',' then c.comma_multiplier
  else if p = '\n' then c.newline_multiplier
  else ⟨1, 1⟩

/-- From src/reading/state.rs: ReadingState. -/
structure ReadingState where
  tokens : List Token
  current_index : Nat
  wpm : Nat
  config : TimingConfig
deriving DecidableEq, Repr

/-- From src/reading/state.rs: ReadingState::new. -/
def ReadingState.new (tokens : List Token) (wpm : Nat) (config : TimingConfig) :
    ReadingState :=
  ⟨tokens, 0, wpm, config⟩

/-- From src/reading/state.rs: calculate_token_duration.  Identical pipeline
to calculate_word_delay except that the final f64 product is cast straight
to u64, truncating toward zero instead of rounding. -/
def ReadingState.calculate_token_duration (s : ReadingState) (t : Token) : Nat :=
  let base_delay_ms : Frac := ⟨wpm_to_milliseconds s.wpm, 1⟩
  let pm : Frac :=
    if t.punctuation = [] then ⟨1, 1⟩
    else (t.punctuation.map (config_multiplier s.config)).foldl Frac.fmax ⟨1, 1⟩
  let lp : Frac :=
    if s.config.long_word_threshold < t.text.length then s.config.long_word_penalty
    else ⟨1, 1⟩
  (fmul (fmul base_delay_ms pm) lp).floor

/-- From src/reading/state.rs: current_token. -/
def ReadingState.current_token (s : ReadingState) : Option Token :=
  s.tokens[s.current_index]?

/-- From src/reading/state.rs: current_token_duration. -/
def ReadingState.current_token_duration (s : ReadingState) : Nat :=
  match s.current_token with
  | some t => s.calculate_token_duration t
  | none => 0

/-- From src/reading/state.rs: adjust_wpm clamps wpm + delta to the
configured inclusive range (signed arithmetic, then back to an unsigned). -/
def ReadingState.adjust_wpm (s : ReadingState) (delta : Int) : ReadingState :=
  { s with
    wpm := (max (min ((s.wpm : Int) + delta) (s.config.wpm_max : Int))
      (s.config.wpm_min : Int)).toNat }

/-- From src/reading/state.rs: advance (saturating at the last index;
Nat subtraction matches usize::saturating_sub). -/
def ReadingState.advance (s : ReadingState) : ReadingState :=
  if s.current_index < s.tokens.length - 1 then
    { s with current_index := s.current_index + 1 }
  else s

/-- From src/reading/state.rs: find_next_sentence_start scans forward from
current_index + 1 for the first sentence-start token. -/
def ReadingState.find_next_sentence_start (s : ReadingState) : Option Nat :=
  let start := s.current_index + 1
  if s.tokens.length ≤ start then none
  else ((s.tokens.drop start).findIdx? (·.is_sentence_start)).map (· + start)

/-- From src/reading/state.rs: jump_to_next_sentence; the Bool is the Rust
return value, paired with the updated state. -/
def ReadingState.jump_to_next_sentence (s : ReadingState) : Bool × ReadingState :=
  match s.find_next_sentence_start with
  | some i => (true, { s with current_index := i })
  | none => (false, s)

/-- From src/reading/state.rs: find_previous_sentence_start scans backward
from current_index - 1 down to 0; the backward scan of the prefix is the
forward scan of its reverse. -/
def ReadingState.find_previous_sentence_start (s : ReadingState) : Option Nat :=
  if s.current_index = 0 then none
  else
    let e := s.current_index
    (((s.tokens.take e).reverse).findIdx? (·.is_sentence_start)).map
      (fun p => e - 1 - p)

/-- From src/reading/state.rs: jump_to_previous_sentence. -/
def ReadingState.jump_to_previous_sentence (s : ReadingState) : Bool × ReadingState :=
  match s.find_previous_sentence_start with
  | some i => (true, { s with current_index := i })
  | none => (false, s)

/-- The specification's per-mark multiplier table, written as exact
rationals: period, question mark and exclamation mark 3.0, comma 1.5,
newline 4.0, anything else 1.0. -/
def spec_mark_multiplier (c : Char) : ℚ :=
  if c = '.' ∨ c = '?' ∨ c = '!' then 3
  else if c = ',' then 3/2
  else if c = '\n' then 4
  else 1

/-- The specification's punctuation multiplier: the maximum multiplier among
all marks of the token, 1 when there are none. -/
def spec_punctuation_multiplier (l : List Char) : ℚ :=
  (l.map spec_mark_multiplier).foldl max 1

/-- The specification's duration formula for a token at a given wpm with the
default configuration: round(round(60000 / wpm) x multiplier x penalty),
rounding half away from zero, in exact rational arithmetic. -/
def round_spec_duration (wpm : Nat) (t : Token) : ℤ :=
  ⌊(⌊(60000 : ℚ) / wpm + 1/2⌋ : ℚ) * spec_punctuation_multiplier t.punctuation *
    (if 10 < t.text.length then (23/20 : ℚ) else 1) + 1/2⌋

/-! Bridge lemmas between natural-number fraction arithmetic and rational
floors. -/

theorem floor_natCast_div (a b : Nat) :
    ⌊(a : ℚ) / (b : ℚ)⌋ = ((a / b : ℕ) : ℤ) := by
  rw [Rat.floor_natCast_div_natCast a b, Int.natCast_div]

theorem floor_add_half_natCast (a b : Nat) (hb : 0 < b) :
    ⌊(a : ℚ) / (b : ℚ) + 1/2⌋ = (((2 * a + b) / (2 * b) : ℕ) : ℤ) := by
  have hbq : ((b : ℚ)) ≠ 0 := by positivity
  have h : (a : ℚ) / (b : ℚ) + 1/2 = ((2 * a + b : ℕ) : ℚ) / ((2 * b : ℕ) : ℚ) := by
    push_cast
    field_simp
    ring
  rw [h, floor_natCast_div]

theorem Frac.floor_eq (f : Frac) (_hd : 0 < f.den) :
    (f.floor : ℤ) = ⌊f.val⌋ := by
  rw [Frac.val, Frac.floor, floor_natCast_div]

theorem Frac.round_eq (f : Frac) (hd : 0 < f.den) :
    (f.round : ℤ) = ⌊f.val + 1/2⌋ := by
  rw [Frac.val, Frac.round, floor_add_half_natCast _ _ hd]

/-! The four fraction values the punctuation multiplier can take, and the
correspondence with the specification's rational table. -/

def mult_table : List Frac := [⟨1, 1⟩, ⟨3, 2⟩, ⟨3, 1⟩, ⟨4, 1⟩]

theorem Frac.fmax_or (a b : Frac) : a.fmax b = a ∨ a.fmax b = b := by
  unfold Frac.fmax
  split <;> simp

theorem get_punctuation_multiplier_mem (c : Char) :
    get_punctuation_multiplier c ∈ mult_table := by
  unfold get_punctuation_multiplier
  split_ifs <;> decide

theorem max_mult_mem_aux (l : List Char) :
    ∀ acc ∈ mult_table, (l.map get_punctuation_multiplier).foldl Frac.fmax acc ∈ mult_table := by
  induction l with
  | nil => intro acc h; simpa using h
  | cons a t ih =>
    intro acc h
    simp only [List.map_cons, List.foldl_cons]
    rcases Frac.fmax_or acc (get_punctuation_multiplier a) with h2 | h2 <;> rw [h2]
    · exact ih acc h
    · exact ih _ (get_punctuation_multiplier_mem a)

theorem max_mult_mem (l : List Char) :
    get_max_punctuation_multiplier l ∈ mult_table :=
  max_mult_mem_aux l ⟨1, 1⟩ (by decide)

theorem Frac.le_iff (a b : Frac) (ha : 0 < a.den) (hb : 0 < b.den) :
    Frac.le a b = true ↔ a.val ≤ b.val := by
  have haq : (0 : ℚ) < a.den := by exact_mod_cast ha
  have hbq : (0 : ℚ) < b.den := by exact_mod_cast hb
  rw [Frac.le, decide_eq_true_iff, Frac.val, Frac.val, div_le_div_iff₀ haq hbq]
  constructor
  · intro h; exact_mod_cast h
  · intro h; exact_mod_cast h

theorem Frac.val_fmax (a b : Frac) (ha : 0 < a.den) (hb : 0 < b.den) :
    (a.fmax b).val = max a.val b.val := by
  rw [Frac.fmax, max_def]
  by_cases h : Frac.le a b = true
  · rw [if_pos h, if_pos ((Frac.le_iff a b ha hb).mp h)]
  · rw [if_neg h]
    rw [if_neg (fun hv => h ((Frac.le_iff a b ha hb).mpr hv))]

theorem get_punctuation_multiplier_den_pos (c : Char) :
    0 < (get_punctuation_multiplier c).den := by
  unfold get_punctuation_multiplier
  split_ifs <;> decide

theorem spec_mark_multiplier_eq (c : Char) :
    spec_mark_multiplier c = (get_punctuation_multiplier c).val := by
  unfold spec_mark_multiplier get_punctuation_multiplier
  split_ifs <;> simp_all [Frac.val]

theorem max_mult_val_aux (l : List Char) :
    ∀ acc : Frac, 0 < acc.den →
      ((l.map get_punctuation_multiplier).foldl Frac.fmax acc).val =
        (l.map spec_mark_multiplier).foldl max acc.val ∧
      0 < ((l.map get_punctuation_multiplier).foldl Frac.fmax acc).den := by
  induction l with
  | nil => intro acc h; exact ⟨rfl, h⟩
  | cons a t ih =>
    intro acc h
    simp only [List.map_cons, List.foldl_cons]
    have hden : 0 < (acc.fmax (get_punctuation_multiplier a)).den := by
      rcases Frac.fmax_or acc (get_punctuation_multiplier a) with h2 | h2 <;> rw [h2]
      · exact h
      · exact get_punctuation_multiplier_den_pos a
    obtain ⟨hv, hd⟩ := ih (acc.fmax (get_punctuation_multiplier a)) hden
    refine ⟨?_, hd⟩
    rw [hv, Frac.val_fmax acc _ h (get_punctuation_multiplier_den_pos a),
      spec_mark_multiplier_eq]

theorem max_mult_val (l : List Char) :
    (get_max_punctuation_multiplier l).val = spec_punctuation_multiplier l := by
  have h := (max_mult_val_aux l ⟨1, 1⟩ (by decide)).1
  rw [get_max_punctuation_multiplier, spec_punctuation_multiplier, h]
  norm_num [Frac.val]

/-- One entry of the exhaustive timing check: for a given base delay,
multiplier fraction and penalty fraction (whose exact rational value is
pn/pd), both the rounded f64 product (calculate_word_delay) and the
truncated f64 product (calculate_token_duration) land on the exact rounded
duration R or directly below it. -/
def c1_entry (base : Nat) (m pen : Frac) (pn pd : Nat) : Bool :=
  let R := (2 * (base * m.num * pn) + m.den * pd) / (2 * (m.den * pd))
  ((fmul (fmul ⟨base, 1⟩ m) pen).round == R ||
    (fmul (fmul ⟨base, 1⟩ m) pen).round + 1 == R) &&
  ((fmul (fmul ⟨base, 1⟩ m) pen).floor == R ||
    (fmul (fmul ⟨base, 1⟩ m) pen).floor + 1 == R)

/-- Exhaustive check over every wpm in the configured bounds 50..1000, every
possible punctuation multiplier and both penalty values: the f64 base delay
agrees with exact rounding, and every computed duration is R or R - 1. -/
def c1_check : Bool :=
  (List.range 951).all fun i =>
    let wpm := i + 50
    let base := wpm_to_milliseconds wpm
    (base == (120000 + wpm) / (2 * wpm)) &&
    (mult_table.all fun m =>
      c1_entry base m ⟨1, 1⟩ 1 1 && c1_entry base m f64_lit_115 23 20)

set_option maxRecDepth 40000 in
set_option maxHeartbeats 4000000 in
theorem c1_check_true : c1_check = true := by decide

/-- Unpacked form of the exhaustive check for one wpm and one multiplier. -/
theorem c1_check_elim (wpm : Nat) (h50 : 50 ≤ wpm) (h1000 : wpm ≤ 1000) :
    wpm_to_milliseconds wpm = (120000 + wpm) / (2 * wpm) ∧
    ∀ m ∈ mult_table,
      c1_entry (wpm_to_milliseconds wpm) m ⟨1, 1⟩ 1 1 = true ∧
      c1_entry (wpm_to_milliseconds wpm) m f64_lit_115 23 20 = true := by
  have hi : wpm - 50 ∈ List.range 951 := List.mem_range.mpr (by omega)
  have h := List.all_eq_true.mp c1_check_true _ hi
  have hw : wpm - 50 + 50 = wpm := by omega
  simp only [hw, Bool.and_eq_true, beq_iff_eq, List.all_eq_true] at h
  exact ⟨h.1, fun m hm => h.2 m hm⟩

theorem c1_entry_elim {base : Nat} {m pen : Frac} {pn pd : Nat}
    (h : c1_entry base m pen pn pd = true) :
    ((fmul (fmul ⟨base, 1⟩ m) pen).round =
        (2 * (base * m.num * pn) + m.den * pd) / (2 * (m.den * pd)) ∨
      (fmul (fmul ⟨base, 1⟩ m) pen).round + 1 =
        (2 * (base * m.num * pn) + m.den * pd) / (2 * (m.den * pd))) ∧
    ((fmul (fmul ⟨base, 1⟩ m) pen).floor =
        (2 * (base * m.num * pn) + m.den * pd) / (2 * (m.den * pd)) ∨
      (fmul (fmul ⟨base, 1⟩ m) pen).floor + 1 =
        (2 * (base * m.num * pn) + m.den * pd) / (2 * (m.den * pd))) := by
  rw [c1_entry] at h
  simp only [Bool.and_eq_true, Bool.or_eq_true, beq_iff_eq] at h
  exact h

theorem config_multiplier_default (c : Char) :
    config_multiplier TimingConfig.default c = get_punctuation_multiplier c := by
  unfold config_multiplier get_punctuation_multiplier TimingConfig.default
  split_ifs <;> simp_all

theorem token_duration_pm (t : Token) :
    (if t.punctuation = [] then (⟨1, 1⟩ : Frac)
     else (t.punctuation.map (config_multiplier TimingConfig.default)).foldl
       Frac.fmax ⟨1, 1⟩) =
    get_max_punctuation_multiplier t.punctuation := by
  have hmap : t.punctuation.map (config_multiplier TimingConfig.default) =
      t.punctuation.map get_punctuation_multiplier :=
    List.map_congr_left fun c _ => config_multiplier_default c
  by_cases h : t.punctuation = []
  · rw [if_pos h, h]; rfl
  · rw [if_neg h, hmap]; rfl

theorem mult_table_den_pos : ∀ m ∈ mult_table, 0 < m.den := by decide

theorem base_eq_floor (wpm : Nat) (h50 : 50 ≤ wpm) (h1000 : wpm ≤ 1000) :
    ⌊(60000 : ℚ) / wpm + 1/2⌋ = (wpm_to_milliseconds wpm : ℤ) := by
  have hbase := (c1_check_elim wpm h50 h1000).1
  have hb : 0 < wpm := by omega
  have e : ((60000 : ℕ) : ℚ) = (60000 : ℚ) := by norm_num
  rw [← e, floor_add_half_natCast 60000 wpm hb, hbase]

theorem spec_RN (baseN mn md pn pd : Nat) (penq : ℚ)
    (hpen : penq = (pn : ℚ) / (pd : ℚ)) (hmd : 0 < md) (hpd : 0 < pd) :
    ⌊(baseN : ℚ) * ((mn : ℚ) / (md : ℚ)) * penq + 1/2⌋ =
      (((2 * (baseN * mn * pn) + md * pd) / (2 * (md * pd)) : ℕ) : ℤ) := by
  have hmdq : ((md : ℚ)) ≠ 0 := by positivity
  have hpdq : ((pd : ℚ)) ≠ 0 := by positivity
  have h : (baseN : ℚ) * ((mn : ℚ) / md) * penq =
      ((baseN * mn * pn : ℕ) : ℚ) / ((md * pd : ℕ) : ℚ) := by
    rw [hpen]
    push_cast
    field_simp
  rw [h, floor_add_half_natCast _ _ (by positivity)]

theorem round_spec_duration_eq_RN (wpm : Nat) (h50 : 50 ≤ wpm)
    (h1000 : wpm ≤ 1000) (t : Token) (pn pd : Nat)
    (hp : (¬ 10 < t.text.length ∧ pn = 1 ∧ pd = 1) ∨
      (10 < t.text.length ∧ pn = 23 ∧ pd = 20)) :
    round_spec_duration wpm t =
      (((2 * (wpm_to_milliseconds wpm * (get_max_punctuation_multiplier t.punctuation).num * pn) +
        (get_max_punctuation_multiplier t.punctuation).den * pd) /
        (2 * ((get_max_punctuation_multiplier t.punctuation).den * pd)) : ℕ) : ℤ) := by
  have hden := mult_table_den_pos _ (max_mult_mem t.punctuation)
  rw [round_spec_duration, base_eq_floor wpm h50 h1000, ← max_mult_val]
  have hval : (get_max_punctuation_multiplier t.punctuation).val =
      (((get_max_punctuation_multiplier t.punctuation).num : ℚ) /
        ((get_max_punctuation_multiplier t.punctuation).den : ℚ)) := rfl
  rcases hp with ⟨hl, rfl, rfl⟩ | ⟨hl, rfl, rfl⟩
  · rw [if_neg hl, hval]
    rw [show ((wpm_to_milliseconds wpm : ℤ) : ℚ) = ((wpm_to_milliseconds wpm : ℕ) : ℚ) by
      push_cast; ring]
    exact spec_RN _ _ _ 1 1 1 (by norm_num) hden (by norm_num)
  · rw [if_pos hl, hval]
    rw [show ((wpm_to_milliseconds wpm : ℤ) : ℚ) = ((wpm_to_milliseconds wpm : ℕ) : ℚ) by
      push_cast; ring]
    exact spec_RN _ _ _ 23 20 (23/20) (by norm_num) hden (by norm_num)

/-- Claim C6: wpm_to_milliseconds computes round(60000 / wpm) with standard
half-away-from-zero rounding for every wpm in the configured bounds; on the
five sample speeds it yields exactly 364, 200, 180, 171 and 100 milliseconds,
while integer truncation of 60000 / 165 would give 363. -/
theorem claim_c6_wpm_to_ms :
    (∀ wpm : Nat, 50 ≤ wpm → wpm ≤ 1000 →
      (wpm_to_milliseconds wpm : ℤ) = ⌊(60000 : ℚ) / wpm + 1/2⌋) ∧
    wpm_to_milliseconds 165 = 364 ∧ wpm_to_milliseconds 300 = 200 ∧
    wpm_to_milliseconds 333 = 180 ∧ wpm_to_milliseconds 350 = 171 ∧
    wpm_to_milliseconds 600 = 100 ∧ ⌊(60000 : ℚ) / 165⌋ = 363 := by
  refine ⟨fun wpm h50 h1000 => (base_eq_floor wpm h50 h1000).symm,
    by decide, by decide, by decide, by decide, by decide, ?_⟩
  have e : ((60000 : ℕ) : ℚ) = (60000 : ℚ) := by norm_num
  have e2 : ((165 : ℕ) : ℚ) = (165 : ℚ) := by norm_num
  rw [← e, ← e2, floor_natCast_div]
  norm_num

/-- Claim C6 witness: the general rounding clause applied at wpm = 165. -/
theorem claim_c6_witness :
    (wpm_to_milliseconds 165 : ℤ) = ⌊(60000 : ℚ) / ((165 : ℕ) : ℚ) + 1/2⌋ :=
  claim_c6_wpm_to_ms.1 165 (by decide) (by decide)

/-! Helper lemmas about punctuation extraction. -/

theorem extract_punctuation_append (w : List Char) :
    (extract_punctuation w).1 ++ (extract_punctuation w).2 = w := by
  unfold extract_punctuation
  split
  · simp [*]
  · rw [← List.reverse_append, List.takeWhile_append_dropWhile, List.reverse_reverse]

theorem extract_punctuation_marks {w : List Char} :
    ∀ x ∈ (extract_punctuation w).2, is_trailing_mark x = true := by
  intro x hx
  unfold extract_punctuation at hx
  split at hx
  · simp at hx
  · exact List.mem_takeWhile_imp (List.mem_reverse.mp hx)

theorem dropWhile_head?_false {p : Char → Bool} :
    ∀ (l : List Char) {c : Char}, (l.dropWhile p).head? = some c → p c = false := by
  intro l
  induction l with
  | nil => intro c h; simp [List.dropWhile] at h
  | cons a t ih =>
    intro c h
    by_cases hp : p a = true
    · rw [List.dropWhile_cons_of_pos hp] at h
      exact ih h
    · rw [List.dropWhile_cons_of_neg hp] at h
      simp at h
      subst h
      simpa using hp

theorem extract_punctuation_maximal {w : List Char} {c : Char}
    (h : (extract_punctuation w).1.getLast? = some c) : is_trailing_mark c = false := by
  unfold extract_punctuation at h
  split at h
  · simp at h
  · rw [List.getLast?_reverse] at h
    exact dropWhile_head?_false _ h

/-- Claim C10: punctuation extraction is a lossless split; concatenating the
extracted text with the extracted punctuation reconstructs the original word
exactly. -/
theorem claim_c10_roundtrip :
    ∀ w : List Char, (extract_punctuation w).1 ++ (extract_punctuation w).2 = w :=
  extract_punctuation_append

/-- Claim C8: for every word the tokenizer peels exactly the contiguous run
of trailing mark characters (period, comma, question mark, exclamation mark)
into the punctuation list, preserving order, the remainder being the text:
the two parts reassemble to the word, every extracted character is a mark,
and the remaining text does not end in a mark; in particular "hello?!"
tokenizes to text "hello" with punctuation ['?', '!'], and "wait..."
to punctuation ['.', '.', '.']. -/
theorem claim_c8_trailing_run :
    (∀ w : List Char,
      (extract_punctuation w).1 ++ (extract_punctuation w).2 = w ∧
      (∀ x ∈ (extract_punctuation w).2, is_trailing_mark x = true) ∧
      (∀ c : Char, (extract_punctuation w).1.getLast? = some c →
        is_trailing_mark c = false)) ∧
    tokenize_text "hello?!".toList = [⟨"hello".toList, ['?', '!'], true⟩] ∧
    tokenize_text "wait...".toList = [⟨"wait".toList, ['.', '.', '.'], true⟩] := by
  refine ⟨fun w => ⟨extract_punctuation_append w, extract_punctuation_marks, ?_⟩, ?_, ?_⟩
  · intro c h; exact extract_punctuation_maximal h
  · decide
  · decide

/-- Claim C8 witness: the universally quantified part evaluated on the word
"ab.!" (text "ab", punctuation ['.', '!']). -/
theorem claim_c8_witness :
    (extract_punctuation ['a', 'b', '.', '!']).1 ++
      (extract_punctuation ['a', 'b', '.', '!']).2 = ['a', 'b', '.', '!'] ∧
    is_trailing_mark '.' = true ∧ is_trailing_mark 'b' = false := by
  refine ⟨(claim_c8_trailing_run.1 ['a', 'b', '.', '!']).1, ?_, ?_⟩
  · exact (claim_c8_trailing_run.1 ['a', 'b', '.', '!']).2.1 '.' (by decide)
  · exact (claim_c8_trailing_run.1 ['a', 'b', '.', '!']).2.2 'b' (by decide)

/-- Claim C9: the anchor index is a pure function of the character count:
0-1 characters map to 0, 2-5 to 1, 6-9 to 2, and 10 or more to 3, with the
five concrete examples of the specification. -/
theorem claim_c9_anchor_position :
    (∀ w : List Char,
      (w.length ≤ 1 → calculate_anchor_position w = 0) ∧
      (2 ≤ w.length → w.length ≤ 5 → calculate_anchor_position w = 1) ∧
      (6 ≤ w.length → w.length ≤ 9 → calculate_anchor_position w = 2) ∧
      (10 ≤ w.length → calculate_anchor_position w = 3)) ∧
    calculate_anchor_position [] = 0 ∧
    calculate_anchor_position "a".toList = 0 ∧
    calculate_anchor_position "hello".toList = 1 ∧
    calculate_anchor_position "worldwide".toList = 2 ∧
    calculate_anchor_position "extraordinarily".toList = 3 := by
  refine ⟨fun w => ?_, by decide, by decide, by decide, by decide, by decide⟩
  unfold calculate_anchor_position
  refine ⟨fun h => ?_, fun h2 h5 => ?_, fun h6 h9 => ?_, fun h10 => ?_⟩ <;>
    simp only [] <;> split_ifs <;> omega

/-- Claim C9 witness: the range clauses evaluated on concrete words of
lengths 1, 2, 6 and 10. -/
theorem claim_c9_witness :
    calculate_anchor_position ['x'] = 0 ∧
    calculate_anchor_position ['a', 'b'] = 1 ∧
    calculate_anchor_position ['a', 'b', 'c', 'd', 'e', 'f'] = 2 ∧
    calculate_anchor_position ['a', 'b', 'c', 'd', 'e', 'f', 'g', 'h', 'i', 'j'] = 3 := by
  refine ⟨(claim_c9_anchor_position.1 ['x']).1 (by decide),
    (claim_c9_anchor_position.1 ['a', 'b']).2.1 (by decide) (by decide),
    (claim_c9_anchor_position.1 ['a', 'b', 'c', 'd', 'e', 'f']).2.2.1 (by decide) (by decide),
    (claim_c9_anchor_position.1
      ['a', 'b', 'c', 'd', 'e', 'f', 'g', 'h', 'i', 'j']).2.2.2 (by decide)⟩

theorem calculate_token_duration_default (wpm : Nat) (t : Token) :
    (ReadingState.new [t] wpm TimingConfig.default).current_token_duration =
      (fmul (fmul ⟨wpm_to_milliseconds wpm, 1⟩
          (get_max_punctuation_multiplier t.punctuation))
        (if 10 < t.text.length then f64_lit_115 else ⟨1, 1⟩)).floor := by
  show ((ReadingState.new [t] wpm TimingConfig.default).calculate_token_duration t) = _
  unfold ReadingState.calculate_token_duration
  simp only [ReadingState.new]
  rw [token_duration_pm]
  rfl

theorem calculate_word_delay_eq (wpm : Nat) (t : Token) :
    calculate_word_delay t.text t.punctuation wpm f64_lit_115 =
      (fmul (fmul ⟨wpm_to_milliseconds wpm, 1⟩
          (get_max_punctuation_multiplier t.punctuation))
        (if 10 < t.text.length then f64_lit_115 else ⟨1, 1⟩)).round := by
  rw [calculate_word_delay, get_word_length_penalty]

/-- Claim C1 (amended): for every token and every wpm within the configured
bounds 50-1000 (default configuration and default penalty), both
ReadingState::current_token_duration and calculate_word_delay compute
base_ms x punctuation_multiplier x length_penalty in 64-bit floating point
with base_ms = round(60000 / wpm), the multiplier the maximum over the
token's marks and the penalty 1.15 above 10 characters; calculate_word_delay
rounds the final product to the nearest millisecond while
current_token_duration truncates it toward zero, so each returned duration
equals round(exact product) or round(exact product) - 1. -/
theorem claim_c1_duration :
    ∀ wpm : Nat, 50 ≤ wpm → wpm ≤ 1000 → ∀ t : Token,
      (round_spec_duration wpm t - 1 ≤
          (calculate_word_delay t.text t.punctuation wpm f64_lit_115 : ℤ) ∧
        (calculate_word_delay t.text t.punctuation wpm f64_lit_115 : ℤ) ≤
          round_spec_duration wpm t) ∧
      (round_spec_duration wpm t - 1 ≤
          ((ReadingState.new [t] wpm TimingConfig.default).current_token_duration : ℤ) ∧
        ((ReadingState.new [t] wpm TimingConfig.default).current_token_duration : ℤ) ≤
          round_spec_duration wpm t) := by
  intro wpm h50 h1000 t
  have hm := max_mult_mem t.punctuation
  have hms := (c1_check_elim wpm h50 h1000).2 _ hm
  rw [calculate_word_delay_eq wpm t, calculate_token_duration_default wpm t]
  by_cases hl : 10 < t.text.length
  · rw [if_pos hl]
    rw [round_spec_duration_eq_RN wpm h50 h1000 t 23 20 (Or.inr ⟨hl, rfl, rfl⟩)]
    obtain ⟨hr, hf⟩ := c1_entry_elim hms.2
    constructor
    · rcases hr with h | h <;> omega
    · rcases hf with h | h <;> omega
  · rw [if_neg hl]
    rw [round_spec_duration_eq_RN wpm h50 h1000 t 1 1 (Or.inl ⟨hl, rfl, rfl⟩)]
    obtain ⟨hr, hf⟩ := c1_entry_elim hms.1
    constructor
    · rcases hr with h | h <;> omega
    · rcases hf with h | h <;> omega

/-- Claim C1 counterexample: at wpm 300 the long unpunctuated word
"extraordinarily" gets duration 229 from ReadingState::current_token_duration,
but round(base_ms x multiplier x penalty) = round(200 x 1 x 1.15) = 230; the
final product is truncated, not rounded to the nearest millisecond. -/
theorem claim_c1_counterexample :
    (ReadingState.new [⟨"extraordinarily".toList, [], true⟩] 300
        TimingConfig.default).current_token_duration = 229 ∧
    round_spec_duration 300 ⟨"extraordinarily".toList, [], true⟩ = 230 := by
  constructor
  · decide
  · rw [round_spec_duration_eq_RN 300 (by norm_num) (by norm_num) _ 23 20
      (Or.inr ⟨by decide, rfl, rfl⟩)]
    decide

/-- Claim C1 witness: the amended bounds applied at wpm 300 to the token with
text "hello" and punctuation ['.']. -/
theorem claim_c1_witness :
    (round_spec_duration 300 ⟨"hello".toList, ['.'], true⟩ - 1 ≤
        (calculate_word_delay "hello".toList ['.'] 300 f64_lit_115 : ℤ) ∧
      (calculate_word_delay "hello".toList ['.'] 300 f64_lit_115 : ℤ) ≤
        round_spec_duration 300 ⟨"hello".toList, ['.'], true⟩) ∧
    (round_spec_duration 300 ⟨"hello".toList, ['.'], true⟩ - 1 ≤
        ((ReadingState.new [⟨"hello".toList, ['.'], true⟩] 300
          TimingConfig.default).current_token_duration : ℤ) ∧
      ((ReadingState.new [⟨"hello".toList, ['.'], true⟩] 300
          TimingConfig.default).current_token_duration : ℤ) ≤
        round_spec_duration 300 ⟨"hello".toList, ['.'], true⟩) :=
  claim_c1_duration 300 (by decide) (by decide) ⟨"hello".toList, ['.'], true⟩

/-- The sentence-start condition exactly as claim C2 states it (for
comparison with the code): previous punctuation contains a newline, OR the
previous token ENDS IN a sentence terminator (last character of its
reconstructed text-plus-punctuation) and the current word starts with an
ASCII uppercase letter and the reconstruction is neither a known
abbreviation nor a decimal number. -/
def claim_sentence_start (prev : Token) (current_word : List Char) : Bool :=
  prev.punctuation.contains '\n' ||
  ((match (prev.text ++ prev.punctuation).getLast? with
    | some c => is_sentence_terminator c
    | none => false) &&
   (match current_word.head? with
    | some c => c.isUpper
    | none => false) &&
   !is_abbreviation (prev.text ++ prev.punctuation) &&
   !is_decimal_number (prev.text ++ prev.punctuation))

/-- The sentence-start condition the code implements, as a pure function of
the previous token and the current raw word: it accepts ANY sentence
terminator among the previous token's punctuation marks, not only a final
one. -/
def code_sentence_start (prev : Token) (current_word : List Char) : Bool :=
  prev.punctuation.contains '\n' ||
  ((prev.punctuation.any fun p => p = '.' || p = '?' || p = '!') &&
   !is_abbreviation (prev.text ++ prev.punctuation) &&
   !is_decimal_number (prev.text ++ prev.punctuation) &&
   (match current_word.head? with
    | some c => c.isUpper
    | none => false))

theorem detect_eq_code (prev : Token) (w : List Char) :
    detect_sentence_boundary (some prev) w = code_sentence_start prev w := by
  simp only [detect_sentence_boundary, code_sentence_start]
  cases hnl : prev.punctuation.contains '\n' <;>
    cases hterm : prev.punctuation.any fun p => p = '.' || p = '?' || p = '!' <;>
      cases habb : is_abbreviation (prev.text ++ prev.punctuation) <;>
        cases hdec : is_decimal_number (prev.text ++ prev.punctuation) <;>
          simp [hnl, hterm, habb, hdec]

/-- The relation claim C2 asserts between consecutive tokenizer tokens (in
its amended, any-terminator form); the current word is recovered from the
later token as text plus punctuation. -/
def token_rel (a b : Token) : Prop :=
  b.is_sentence_start = code_sentence_start a (b.text ++ b.punctuation)

theorem code_empty_newline (x : Token) :
    code_sentence_start x [] = code_sentence_start x ['\n'] := by
  have h : Char.isUpper '\n' = false := by decide
  simp [code_sentence_start, h]

theorem chain'_push_word (tokens : List Token) (w : List Char)
    (h : List.Chain' token_rel tokens) :
    List.Chain' token_rel (push_word tokens w) := by
  rw [push_word]
  split
  · exact h
  · refine List.chain'_append.mpr ⟨h, List.chain'_singleton _, ?_⟩
    intro x hx y hy
    simp only [List.head?_cons, Option.mem_def, Option.some.injEq] at hy
    subst hy
    show Token.is_sentence_start _ = code_sentence_start x _
    simp only []
    rw [extract_punctuation_append w, Option.mem_def.mp hx]
    exact detect_eq_code x w

theorem chain'_push_newline (tokens : List Token)
    (h : List.Chain' token_rel tokens) :
    List.Chain' token_rel (push_newline_token tokens) := by
  rw [push_newline_token]
  refine List.chain'_append.mpr ⟨h, List.chain'_singleton _, ?_⟩
  intro x hx y hy
  simp only [List.head?_cons, Option.mem_def, Option.some.injEq] at hy
  subst hy
  show Token.is_sentence_start _ = code_sentence_start x _
  simp only []
  rw [Option.mem_def.mp hx, detect_eq_code x []]
  exact code_empty_newline x

theorem chain'_foldl_push (ws : List (List Char)) :
    ∀ tokens : List Token, List.Chain' token_rel tokens →
      List.Chain' token_rel (ws.foldl push_word tokens) := by
  induction ws with
  | nil => intro tokens h; exact h
  | cons w t ih =>
    intro tokens h
    exact ih _ (chain'_push_word tokens w h)

theorem chain'_process_line (tokens : List Token) (line : List Char)
    (h : List.Chain' token_rel tokens) :
    List.Chain' token_rel (process_line tokens line) :=
  chain'_push_newline _ (chain'_foldl_push _ tokens h)

theorem chain'_foldl_process (ls : List (List Char)) :
    ∀ tokens : List Token, List.Chain' token_rel tokens →
      List.Chain' token_rel (ls.foldl process_line tokens) := by
  induction ls with
  | nil => intro tokens h; exact h
  | cons l t ih =>
    intro tokens h
    exact ih _ (chain'_process_line tokens l h)

theorem chain'_dropLast {l : List Token} (h : List.Chain' token_rel l) :
    List.Chain' token_rel l.dropLast := by
  rcases List.eq_nil_or_concat l with rfl | ⟨l', a, rfl⟩
  · simp
  · rw [List.concat_eq_append] at h ⊢
    rw [List.dropLast_concat]
    exact (List.chain'_append.mp h).1

theorem tokenize_text_chain (s : List Char) :
    List.Chain' token_rel (tokenize_text s) := by
  have hraw := chain'_foldl_process (rust_lines s) [] List.chain'_nil
  rw [tokenize_text]
  split
  · split
    · exact chain'_dropLast hraw
    · exact hraw
  · exact hraw

/-- Claim C2 (amended): for every pair of consecutive tokens produced by the
tokenizer, the later token is a sentence start iff the previous token's
punctuation contains a newline, OR the previous token's punctuation contains
a sentence terminator ANYWHERE among its marks (amended from "ends in"),
the current word's first character is an ASCII uppercase letter, and the
previous token's reconstructed text-plus-punctuation is neither a known
abbreviation nor a decimal number; tokenizing "Dr. Smith went home." yields
sentence-start flags [true, false, false, false]. -/
theorem claim_c2_sentence_start :
    (∀ s : List Char, List.Chain' token_rel (tokenize_text s)) ∧
    (tokenize_text "Dr. Smith went home.".toList).map Token.is_sentence_start =
      [true, false, false, false] :=
  ⟨tokenize_text_chain, by decide⟩

/-- Claim C2 counterexample: tokenizing "ok., Yes" produces a first token
with text "ok" and punctuation ['.', ','] (ending in a comma) followed by a
token "Yes" flagged as a sentence start, yet the claim's stated condition -
previous token ends in a sentence terminator - is false for this pair. -/
theorem claim_c2_counterexample :
    tokenize_text "ok., Yes".toList =
      [⟨"ok".toList, ['.', ','], true⟩, ⟨"Yes".toList, [], true⟩] ∧
    claim_sentence_start ⟨"ok".toList, ['.', ','], true⟩
      ("Yes".toList ++ []) = false := by
  constructor
  · decide
  · decide

theorem split_whitespace_ne_nil {line w : List Char}
    (h : w ∈ split_whitespace line) : w ≠ [] := by
  rw [split_whitespace] at h
  exact of_decide_eq_true (List.mem_filter.mp h).2

theorem push_word_ne (tokens : List Token) (w : List Char) (h : ¬ w = []) :
    push_word tokens w = tokens ++
      [⟨(extract_punctuation w).1, (extract_punctuation w).2,
        detect_sentence_boundary tokens.getLast? w⟩] := by
  rw [push_word, if_neg h]

theorem tokenize_last_word (s line : List Char)
    (hline : (rust_lines s).getLast? = some line)
    (hwords : split_whitespace line ≠ []) :
    ∃ (pre : List Token) (tok : Token),
      tokenize_text s = pre ++ [tok] ∧
      ∀ c ∈ tok.punctuation, is_trailing_mark c = true := by
  obtain ⟨init, hinit⟩ := List.getLast?_eq_some_iff.mp hline
  obtain ⟨ws, w, hws⟩ : ∃ ws w, split_whitespace line = ws ++ [w] := by
    rcases List.eq_nil_or_concat (split_whitespace line) with h | ⟨ws, w, h⟩
    · exact absurd h hwords
    · exact ⟨ws, w, by rw [h, List.concat_eq_append]⟩
  have hw_ne : ¬ w = [] := split_whitespace_ne_nil (by rw [hws]; simp)
  set acc := init.foldl process_line [] with hacc
  set mid := ws.foldl push_word acc with hmid
  set tok : Token := ⟨(extract_punctuation w).1, (extract_punctuation w).2,
    detect_sentence_boundary mid.getLast? w⟩ with htok
  have hstep : (split_whitespace line).foldl push_word acc = mid ++ [tok] := by
    rw [hws, List.foldl_append, ← hmid]
    show push_word mid w = mid ++ [tok]
    rw [push_word_ne mid w hw_ne]
  have hraw : (rust_lines s).foldl process_line [] =
      (mid ++ [tok]) ++
        [⟨[], ['\n'], detect_sentence_boundary (mid ++ [tok]).getLast? []⟩] := by
    rw [hinit, List.foldl_append]
    show process_line (List.foldl process_line [] init) line = _
    rw [← hacc, process_line, hstep, push_newline_token]
  refine ⟨mid, tok, ?_, fun c hc => extract_punctuation_marks c hc⟩
  rw [tokenize_text, hraw]
  simp only [List.getLast?_concat]
  rw [if_pos (by simp)]
  exact List.dropLast_concat

/-- Claim C3 (amended): tokenize_text of the empty string is the empty token
list, and whenever the final line of the input contains at least one word,
the returned token sequence does not end with a synthetic newline token.
(Only ONE trailing synthetic newline token is dropped, so an input whose
final line is empty - such as "a\n\n" - still ends with one.) -/
theorem claim_c3_trailing_newline :
    tokenize_text [] = [] ∧
    ∀ s line : List Char, (rust_lines s).getLast? = some line →
      split_whitespace line ≠ [] →
      ∀ t : Token, (tokenize_text s).getLast? = some t →
        ¬(t.text = [] ∧ t.punctuation = ['\n']) := by
  refine ⟨rfl, fun s line hline hwords t hlast hcontra => ?_⟩
  obtain ⟨pre, tok, heq, hmarks⟩ := tokenize_last_word s line hline hwords
  rw [heq, List.getLast?_concat] at hlast
  obtain rfl : tok = t := by simpa using hlast
  have : is_trailing_mark '\n' = true := hmarks '\n' (by rw [hcontra.2]; simp)
  simp [is_trailing_mark, is_sentence_terminator, is_comma] at this

/-- Claim C3 counterexample: for the input "a\n\n" (final line empty) the
token list still ends with a synthetic newline token - only one trailing
synthetic newline token is popped. -/
theorem claim_c3_counterexample :
    tokenize_text ['a', '\n', '\n'] =
      [⟨['a'], [], true⟩, ⟨[], ['\n'], false⟩] ∧
    (tokenize_text ['a', '\n', '\n']).getLast? = some ⟨[], ['\n'], false⟩ := by
  constructor
  · decide
  · decide

/-- Claim C3 witness: the amended statement applied to "hello world.", whose
final (only) line contains words; its last token is "world" with a period,
not a synthetic newline token. -/
theorem claim_c3_witness :
    ¬((⟨"world".toList, ['.'], false⟩ : Token).text = [] ∧
      (⟨"world".toList, ['.'], false⟩ : Token).punctuation = ['\n']) :=
  claim_c3_trailing_newline.2 "hello world.".toList "hello world.".toList
    (by decide) (by decide) ⟨"world".toList, ['.'], false⟩ (by decide)

/-- The ReadingCursor index invariant of claim C7: the index stays inside
the token sequence, and is pinned to 0 when the sequence is empty. -/
def cursor_inv (s : ReadingState) : Prop :=
  (s.tokens = [] → s.current_index = 0) ∧
  (s.tokens ≠ [] → s.current_index < s.tokens.length)

theorem findIdx?_lt_length {p : Token → Bool} {l : List Token} {i : Nat}
    (h : l.findIdx? p = some i) : i < l.length :=
  (List.findIdx?_eq_some_iff_findIdx_eq.mp h).1

/-- Claim C7: the invariant 0 <= current_index < length (index 0 when the
token list is empty) holds after construction and is preserved by advance,
jump_to_next_sentence, jump_to_previous_sentence and adjust_wpm; advance
increments by one saturating at the last index; a jump that finds no target
returns false and leaves the state unchanged. -/
theorem claim_c7_cursor_invariant :
    (∀ (tokens : List Token) (wpm : Nat) (cfg : TimingConfig),
      cursor_inv (ReadingState.new tokens wpm cfg)) ∧
    ∀ s : ReadingState, cursor_inv s →
      cursor_inv s.advance ∧
      (s.tokens ≠ [] → s.advance.current_index =
        min (s.current_index + 1) (s.tokens.length - 1)) ∧
      cursor_inv s.jump_to_next_sentence.2 ∧
      (s.jump_to_next_sentence.1 = false → s.jump_to_next_sentence.2 = s) ∧
      cursor_inv s.jump_to_previous_sentence.2 ∧
      (s.jump_to_previous_sentence.1 = false → s.jump_to_previous_sentence.2 = s) ∧
      ∀ d : Int, cursor_inv (s.adjust_wpm d) := by
  constructor
  · intro tokens wpm cfg
    refine ⟨fun _ => rfl, fun h => ?_⟩
    exact List.length_pos.mpr h
  intro s hinv
  obtain ⟨hemp, hne⟩ := hinv
  refine ⟨?_, ?_, ?_, ?_, ?_, ?_, ?_⟩
  · -- advance preserves the invariant
    rw [ReadingState.advance]
    split
    · next hlt =>
      refine ⟨fun h => ?_, fun h => ?_⟩
      · rw [h] at hlt; simp at hlt
      · simp only []
        have := hne h
        omega
    · exact ⟨hemp, hne⟩
  · -- advance saturates at the last index
    intro h
    have hlen := hne h
    rw [ReadingState.advance]
    split
    · next hlt =>
      show s.current_index + 1 = min (s.current_index + 1) (s.tokens.length - 1)
      omega
    · next hlt =>
      show s.current_index = min (s.current_index + 1) (s.tokens.length - 1)
      omega
  · -- jump_to_next_sentence preserves the invariant
    rw [ReadingState.jump_to_next_sentence]
    cases hfind : s.find_next_sentence_start with
    | none => exact ⟨hemp, hne⟩
    | some i =>
      rw [ReadingState.find_next_sentence_start] at hfind
      split at hfind
      · simp at hfind
      · next hstart =>
        obtain ⟨p, hp, rfl⟩ := Option.map_eq_some'.mp hfind
        have hplen := findIdx?_lt_length hp
        rw [List.length_drop] at hplen
        refine ⟨fun h => ?_, fun _ => ?_⟩
        · rw [h] at hstart; simp at hstart
        · show p + (s.current_index + 1) < s.tokens.length
          omega
  · -- a failed forward jump returns the state unchanged
    rw [ReadingState.jump_to_next_sentence]
    cases hfind : s.find_next_sentence_start with
    | none => intro _; rfl
    | some i => intro h; simp at h
  · -- jump_to_previous_sentence preserves the invariant
    rw [ReadingState.jump_to_previous_sentence]
    cases hfind : s.find_previous_sentence_start with
    | none => exact ⟨hemp, hne⟩
    | some i =>
      rw [ReadingState.find_previous_sentence_start] at hfind
      split at hfind
      · simp at hfind
      · next hzero =>
        obtain ⟨p, hp, rfl⟩ := Option.map_eq_some'.mp hfind
        have hne2 : s.tokens ≠ [] := by
          intro hnil
          exact hzero (hemp hnil)
        have hidx := hne hne2
        refine ⟨fun h => absurd h hne2, fun _ => ?_⟩
        simp only []
        omega
  · -- a failed backward jump returns the state unchanged
    rw [ReadingState.jump_to_previous_sentence]
    cases hfind : s.find_previous_sentence_start with
    | none => intro _; rfl
    | some i => intro h; simp at h
  · -- adjust_wpm does not touch the index
    intro d
    exact ⟨hemp, hne⟩

/-- Claim C7 witness: the preservation clauses applied to a concrete
two-token state at index 0. -/
theorem claim_c7_witness :
    cursor_inv (ReadingState.mk [⟨"Hi".toList, [], true⟩,
      ⟨"there".toList, [], false⟩] 0 300 TimingConfig.default).advance ∧
    (ReadingState.mk [⟨"Hi".toList, [], true⟩, ⟨"there".toList, [], false⟩]
        0 300 TimingConfig.default).advance.current_index =
      min (0 + 1) ([⟨"Hi".toList, [], true⟩,
        (⟨"there".toList, [], false⟩ : Token)].length - 1) ∧
    cursor_inv ((ReadingState.mk [⟨"Hi".toList, [], true⟩,
      ⟨"there".toList, [], false⟩] 0 300 TimingConfig.default).adjust_wpm 50) := by
  have h := claim_c7_cursor_invariant.2
    (ReadingState.mk [⟨"Hi".toList, [], true⟩, ⟨"there".toList, [], false⟩]
      0 300 TimingConfig.default) ⟨fun h => by simp at h, fun _ => by simp⟩
  exact ⟨h.1, h.2.1 (by simp), h.2.2.2.2.2.2 50⟩

/-- An RGBA pixel of the imageproc image buffers used in
src/rendering/kitty.rs. -/
structure Rgba where
  r : Nat
  g : Nat
  b : Nat
  a : Nat
deriving DecidableEq, Repr

/-- An RGBA image buffer: width, height and row-major pixel data. -/
structure ImageBuffer where
  width : Nat
  height : Nat
  pixels : List Rgba
deriving DecidableEq, Repr

/-- From src/rendering/font.rs: FontMetrics (f32 fields held as exact
rationals; the claims below never depend on their numeric values). -/
structure FontMetrics where
  ascent : ℚ
  descent : ℚ
  line_gap : ℚ
  height : ℚ
  font_size : ℚ
deriving Repr

/-- From src/rendering/viewport.rs: TerminalDimensions. -/
structure TerminalDimensions where
  pixel_size : Nat × Nat
  cell_count : Nat × Nat
  cell_size : ℚ × ℚ
deriving Repr

/-- From src/rendering/kitty.rs: ReadingCanvas. -/
structure ReadingCanvas where
  buffer : ImageBuffer
  dimensions : Nat × Nat
  background_color : Rgba
deriving DecidableEq, Repr

/-- From src/rendering/kitty.rs: ReadingCanvas::new fills the buffer with
the background colour #1A1B26. -/
def ReadingCanvas.new (width height : Nat) : ReadingCanvas :=
  ⟨⟨width, height, List.replicate (width * height) ⟨26, 27, 38, 255⟩⟩,
   (width, height), ⟨26, 27, 38, 255⟩⟩

/-- From src/rendering/kitty.rs: ReadingCanvas::clear overwrites every pixel
with the background colour. -/
def ReadingCanvas.clear (c : ReadingCanvas) : ReadingCanvas :=
  { c with buffer := { c.buffer with
      pixels := c.buffer.pixels.map fun _ => c.background_color } }

/-- From src/rendering/kitty.rs: the reading line sits at 42 percent of the
canvas height.  The f32 product is modelled as the exact rational product;
no claim below depends on this value. -/
def ReadingCanvas.calculate_reading_line_y (c : ReadingCanvas) : Nat :=
  (⌊(c.dimensions.2 : ℚ) * (42 / 100 : ℚ)⌋).toNat

/-- From src/engine/renderer.rs: the renderer error enumeration. -/
inductive RendererError where
  | initialization_failed (msg : String)
  | render_failed (msg : String)
  | clear_failed (msg : String)
  | cleanup_failed (msg : String)
  | invalid_arguments (msg : String)
deriving DecidableEq, Repr

/-- One Kitty graphics APC transmit command as assembled by
transmit_graphics in src/rendering/kitty.rs: action transmit, 32-bit RGBA
format, size, image id, pixel position, more-data flag and the base64
payload carried between the control sequences. -/
structure TransmitCommand where
  width : Nat
  height : Nat
  image_id : Nat
  pos_x : Nat
  pos_y : Nat
  more : Nat
  payload : List Char
deriving DecidableEq, Repr

/-- Rust slice::chunks(4096) over the payload (base64 payloads are ASCII,
so bytes coincide with characters), by structural recursion on fuel. -/
def chunks_aux : Nat → List Char → List (List Char)
  | 0, _ => []
  | _ + 1, [] => []
  | fuel + 1, l => l.take 4096 :: chunks_aux fuel (l.drop 4096)

/-- The 4096-byte chunks of a payload. -/
def payload_chunks (l : List Char) : List (List Char) :=
  chunks_aux l.length l

/-- From src/rendering/kitty.rs: transmit_graphics.  The printed escape
commands become the returned command list (each write is flushed before the
next; flushing is assumed to succeed).  A payload of at most 4096 bytes is
sent as a single command with m=0; a longer payload is split into 4096-byte
chunks, flagged m=1 except for the final chunk. -/
def transmit_graphics (image_id width height : Nat) (base64_data : List Char)
    (pos_x pos_y : Nat) : List TransmitCommand :=
  if base64_data.length ≤ 4096 then
    [⟨width, height, image_id, pos_x, pos_y, 0, base64_data⟩]
  else
    (payload_chunks base64_data).enum.map fun ic =>
      ⟨width, height, image_id, pos_x, pos_y,
        if ic.1 = (payload_chunks base64_data).length - 1 then 0 else 1, ic.2⟩

/-- From src/rendering/kitty.rs: KittyGraphicsRenderer, parameterized over
the external ab_glyph font type; the viewport field holds what
Viewport::get_dimensions returns. -/
structure KittyGraphicsRenderer (F : Type) where
  viewport : Option TerminalDimensions
  font : Option F
  font_size : ℚ
  font_metrics : Option FontMetrics
  current_image_id : Nat
  reading_zone_center : Nat × Nat

/-- From src/rendering/kitty.rs: create_canvas builds a canvas covering the
full terminal width and 85 percent of its height, when the viewport
dimensions are known. -/
def create_canvas {F : Type} (r : KittyGraphicsRenderer F) : Option ReadingCanvas :=
  r.viewport.map fun dims =>
    ReadingCanvas.new dims.pixel_size.1
      (⌊(dims.pixel_size.2 : ℚ) * (85 / 100 : ℚ)⌋).toNat

/-- Rust cast from a finite float to a signed integer: truncation toward
zero. -/
def float_to_int (q : ℚ) : Int :=
  if 0 ≤ q then ⌊q⌋ else -⌊-q⌋

section Compositor

variable {F : Type}
variable (calculate_string_width : F → List Char → ℚ → ℚ)
variable (calculate_char_width : F → Char → ℚ → ℚ)
variable (draw_text_mut : ImageBuffer → Rgba → Int → Int → ℚ → F → List Char → ImageBuffer)
variable (encode_image_base64 : ImageBuffer → List Char)

/-- From src/rendering/kitty.rs: calculate_start_x_for_canvas.  The glyph
measuring functions of src/rendering/font.rs wrap the external ab_glyph
crate and are taken as parameters. -/
def calculate_start_x_for_canvas (r : KittyGraphicsRenderer F)
    (word : List Char) (anchor_position : Nat) (center_x : ℚ) : ℚ :=
  match r.font, r.font_metrics with
  | some font, some _ =>
    if word.length ≤ anchor_position then 0
    else
      let prefix_width :=
        calculate_string_width font (word.take anchor_position) r.font_size
      let anchor_width :=
        calculate_string_width font [word.getD anchor_position ' '] r.font_size
      center_x - (prefix_width + anchor_width / 2)
  | _, _ => 0

/-- From src/rendering/kitty.rs: composite_word.  Guards run first: missing
font or metrics, an empty word, or an out-of-bounds anchor index return
false with the canvas untouched; only then is the canvas cleared and drawn
into.  The external imageproc draw_text_mut is a parameter. -/
def composite_word (r : KittyGraphicsRenderer F) (canvas : ReadingCanvas)
    (word : List Char) (anchor_position : Nat) : ReadingCanvas × Bool :=
  if r.font.isNone || r.font_metrics.isNone || word.isEmpty then (canvas, false)
  else if word.length ≤ anchor_position then (canvas, false)
  else
    match r.font, r.font_metrics with
    | some font, some metrics =>
      let canvas1 := canvas.clear
      let reading_line_y := canvas1.calculate_reading_line_y
      let _word_width := calculate_string_width font word r.font_size
      let _word_height := metrics.height
      let center_x : ℚ := (canvas1.dimensions.1 : ℚ) / 2
      let start_x := calculate_start_x_for_canvas calculate_string_width
        r word anchor_position center_x
      let pos_y : Int := (reading_line_y : Int) - float_to_int metrics.ascent
      let anchor_idx := min anchor_position (word.length - 1)
      let pfx := word.take anchor_idx
      let anchor_char := word.getD anchor_idx ' '
      let sfx := word.drop (anchor_idx + 1)
      let text_color : Rgba := ⟨169, 177, 214, 255⟩
      let anchor_color : Rgba := ⟨247, 118, 142, 255⟩
      let x_offset0 : Int := float_to_int start_x
      let step1 :=
        if pfx.isEmpty then (canvas1.buffer, x_offset0)
        else
          (draw_text_mut canvas1.buffer text_color x_offset0 pos_y
            r.font_size font pfx,
           x_offset0 + ⌈calculate_string_width font pfx r.font_size⌉)
      let anchor_width := calculate_char_width font anchor_char r.font_size
      let buffer2 := draw_text_mut step1.1 anchor_color step1.2 pos_y
        r.font_size font [anchor_char]
      let x_offset2 := step1.2 + ⌈anchor_width⌉
      let buffer3 :=
        if sfx.isEmpty then buffer2
        else draw_text_mut buffer2 text_color x_offset2 pos_y r.font_size font sfx
      ({ canvas1 with buffer := buffer3 }, true)
    | _, _ => (canvas, false)

/-- From src/rendering/kitty.rs: render_frame.  Validation first (empty word
is a silent no-op, an out-of-bounds anchor is an error), then canvas
creation, composition and transmission; the image id is incremented only
after a successful transmission.  The returned triple is (result, updated
renderer, transmitted commands). -/
def render_frame (r : KittyGraphicsRenderer F) (word : List Char)
    (anchor_position : Nat) :
    Except RendererError Unit × KittyGraphicsRenderer F × List TransmitCommand :=
  if word.isEmpty then (Except.ok (), r, [])
  else if word.length ≤ anchor_position then
    (Except.error (RendererError.invalid_arguments
      "anchor_position out of bounds for word"), r, [])
  else
    match create_canvas r with
    | none =>
      (Except.error (RendererError.render_failed
        "Failed to create canvas - viewport dimensions not available"), r, [])
    | some canvas =>
      if (composite_word calculate_string_width calculate_char_width
          draw_text_mut r canvas word anchor_position).2 = false then
        (Except.error (RendererError.render_failed
          "Failed to composite word onto canvas"), r, [])
      else
        (Except.ok (),
         { r with current_image_id := r.current_image_id + 1 },
         transmit_graphics r.current_image_id
           (composite_word calculate_string_width calculate_char_width
             draw_text_mut r canvas word anchor_position).1.buffer.width
           (composite_word calculate_string_width calculate_char_width
             draw_text_mut r canvas word anchor_position).1.buffer.height
           (encode_image_base64
             (composite_word calculate_string_width calculate_char_width
               draw_text_mut r canvas word anchor_position).1.buffer)
           0 0)

theorem composite_word_fail (r : KittyGraphicsRenderer F)
    (canvas : ReadingCanvas) (word : List Char) (anchor_position : Nat)
    (h : r.font = none ∨ r.font_metrics = none ∨ word = [] ∨
      word.length ≤ anchor_position) :
    composite_word calculate_string_width calculate_char_width draw_text_mut
      r canvas word anchor_position = (canvas, false) := by
  rw [composite_word]
  by_cases hg : (r.font.isNone || r.font_metrics.isNone || word.isEmpty) = true
  · rw [if_pos hg]
  · rw [if_neg hg]
    have hanchor : word.length ≤ anchor_position := by
      rcases h with h | h | h | h
      · exact absurd (by simp [h]) hg
      · exact absurd (by simp [h]) hg
      · exact absurd (by simp [h]) hg
      · exact h
    rw [if_pos hanchor]

theorem render_frame_fail (r : KittyGraphicsRenderer F)
    (word : List Char) (anchor_position : Nat)
    (h : r.font = none ∨ r.font_metrics = none ∨ word = [] ∨
      word.length ≤ anchor_position) :
    (render_frame calculate_string_width calculate_char_width draw_text_mut
      encode_image_base64 r word anchor_position).2.2 = [] ∧
    (render_frame calculate_string_width calculate_char_width draw_text_mut
      encode_image_base64 r word anchor_position).2.1 = r := by
  rw [render_frame]
  by_cases hempty : word.isEmpty = true
  · rw [if_pos hempty]; exact ⟨rfl, rfl⟩
  · rw [if_neg hempty]
    by_cases hanchor : word.length ≤ anchor_position
    · rw [if_pos hanchor]; exact ⟨rfl, rfl⟩
    · rw [if_neg hanchor]
      have hfm : r.font = none ∨ r.font_metrics = none := by
        rcases h with h | h | h | h
        · exact Or.inl h
        · exact Or.inr h
        · exact absurd (by simp [h] : word.isEmpty = true) hempty
        · exact absurd h hanchor
      cases hcv : create_canvas r with
      | none => exact ⟨rfl, rfl⟩
      | some canvas =>
        have hcomp := composite_word_fail calculate_string_width
          calculate_char_width draw_text_mut r canvas word anchor_position
          (hfm.elim Or.inl (fun hh => Or.inr (Or.inl hh)))
        simp [hcomp]

end Compositor

/-- Claim C4: when the compositor's font or font metrics are missing, or the
anchor index is at least the word's character count, or the word is empty,
composite_word returns failure with the canvas value unchanged (every pixel
untouched), and render_frame transmits nothing and leaves the renderer -
in particular its image id - unchanged; no partial frame is ever produced.
The external glyph-measuring, drawing and encoding functions are universally
quantified. -/
theorem claim_c4_no_partial_frame :
    ∀ {F : Type} (csw : F → List Char → ℚ → ℚ) (ccw : F → Char → ℚ → ℚ)
      (draw : ImageBuffer → Rgba → Int → Int → ℚ → F → List Char → ImageBuffer)
      (enc : ImageBuffer → List Char)
      (r : KittyGraphicsRenderer F) (canvas : ReadingCanvas)
      (word : List Char) (anchor_position : Nat),
      (r.font = none ∨ r.font_metrics = none ∨ word = [] ∨
        word.length ≤ anchor_position) →
      composite_word csw ccw draw r canvas word anchor_position =
        (canvas, false) ∧
      (render_frame csw ccw draw enc r word anchor_position).2.2 = [] ∧
      (render_frame csw ccw draw enc r word anchor_position).2.1 = r :=
  fun csw ccw draw enc r canvas word anchor_position h =>
    ⟨composite_word_fail csw ccw draw r canvas word anchor_position h,
     (render_frame_fail csw ccw draw enc r word anchor_position h).1,
     (render_frame_fail csw ccw draw enc r word anchor_position h).2⟩

/-- Claim C4 witness: a renderer with no font loaded, applied to the word
"hi" on an 8 x 8 canvas. -/
theorem claim_c4_witness :
    composite_word (F := Unit) (fun _ _ _ => 0) (fun _ _ _ => 0)
        (fun b _ _ _ _ _ _ => b) ⟨none, none, 24, none, 1, (0, 0)⟩
        (ReadingCanvas.new 8 8) "hi".toList 0 =
      (ReadingCanvas.new 8 8, false) ∧
    (render_frame (F := Unit) (fun _ _ _ => 0) (fun _ _ _ => 0)
        (fun b _ _ _ _ _ _ => b) (fun _ => [])
        ⟨none, none, 24, none, 1, (0, 0)⟩ "hi".toList 0).2.2 = [] ∧
    (render_frame (F := Unit) (fun _ _ _ => 0) (fun _ _ _ => 0)
        (fun b _ _ _ _ _ _ => b) (fun _ => [])
        ⟨none, none, 24, none, 1, (0, 0)⟩ "hi".toList 0).2.1 =
      ⟨none, none, 24, none, 1, (0, 0)⟩ :=
  claim_c4_no_partial_frame (fun _ _ _ => 0) (fun _ _ _ => 0)
    (fun b _ _ _ _ _ _ => b) (fun _ => [])
    ⟨none, none, 24, none, 1, (0, 0)⟩ (ReadingCanvas.new 8 8)
    "hi".toList 0 (Or.inr (Or.inl rfl))

theorem chunks_aux_nil : ∀ fuel : Nat, chunks_aux fuel [] = [] := by
  intro fuel
  cases fuel <;> rfl

theorem chunks_aux_cons (n : Nat) (a : Char) (t : List Char) :
    chunks_aux (n + 1) (a :: t) =
      (a :: t).take 4096 :: chunks_aux n ((a :: t).drop 4096) := rfl

theorem chunks_aux_flatten : ∀ (fuel : Nat) (l : List Char), l.length ≤ fuel →
    (chunks_aux fuel l).flatten = l := by
  intro fuel
  induction fuel with
  | zero =>
    intro l h
    rw [List.eq_nil_of_length_eq_zero (Nat.le_zero.mp h)]
    rfl
  | succ n ih =>
    intro l h
    cases l with
    | nil => rfl
    | cons a t =>
      rw [List.length_cons] at h
      rw [chunks_aux_cons, List.flatten_cons]
      rw [ih _ (by rw [List.length_drop, List.length_cons]; omega)]
      exact List.take_append_drop 4096 (a :: t)

theorem chunks_aux_length : ∀ (fuel : Nat) (l : List Char), l.length ≤ fuel →
    l ≠ [] → (chunks_aux fuel l).length = (l.length + 4095) / 4096 := by
  intro fuel
  induction fuel with
  | zero =>
    intro l h hne
    exact absurd (List.eq_nil_of_length_eq_zero (Nat.le_zero.mp h)) hne
  | succ n ih =>
    intro l h hne
    cases l with
    | nil => exact absurd rfl hne
    | cons a t =>
      rw [List.length_cons] at h
      rw [chunks_aux_cons]
      by_cases hle : (a :: t).length ≤ 4096
      · have hdrop : (a :: t).drop 4096 = [] := List.drop_eq_nil_of_le hle
        rw [List.length_cons] at hle
        rw [hdrop, chunks_aux_nil]
        simp only [List.length_cons, List.length_nil]
        omega
      · push_neg at hle
        rw [List.length_cons] at hle
        have hdne : (a :: t).drop 4096 ≠ [] := by
          intro hnil
          have h2 := congrArg List.length hnil
          rw [List.length_drop, List.length_cons] at h2
          simp only [List.length_nil] at h2
          omega
        simp only [List.length_cons]
        rw [ih _ (by rw [List.length_drop, List.length_cons]; omega) hdne,
          List.length_drop]
        simp only [List.length_cons]
        omega

theorem chunks_aux_le : ∀ (fuel : Nat) (l c : List Char),
    c ∈ chunks_aux fuel l → c.length ≤ 4096 := by
  intro fuel
  induction fuel with
  | zero => intro l c h; simp [chunks_aux] at h
  | succ n ih =>
    intro l c h
    cases l with
    | nil => simp [chunks_aux] at h
    | cons a t =>
      rw [chunks_aux_cons] at h
      rcases List.mem_cons.mp h with rfl | h2
      · rw [List.length_take]
        exact min_le_left _ _
      · exact ih _ _ h2

/-- Claim C5: a base64 payload of at most 4096 bytes is transmitted as a
single command with the more-data flag 0; a longer payload is split into
exactly ceil(len / 4096) chunked commands, each carrying at most 4096
payload bytes, whose concatenation is the original payload, with the
more-data flag 1 on every chunk except the last, which carries 0. -/
theorem claim_c5_chunking :
    ∀ (image_id width height pos_x pos_y : Nat) (payload : List Char),
      (payload.length ≤ 4096 →
        transmit_graphics image_id width height payload pos_x pos_y =
          [⟨width, height, image_id, pos_x, pos_y, 0, payload⟩]) ∧
      (4096 < payload.length →
        (transmit_graphics image_id width height payload pos_x pos_y).length =
          (payload.length + 4095) / 4096 ∧
        (∀ c ∈ transmit_graphics image_id width height payload pos_x pos_y,
          c.payload.length ≤ 4096) ∧
        ((transmit_graphics image_id width height payload pos_x pos_y).map
          (fun c => c.payload)).flatten = payload ∧
        (∀ i : Nat,
          ∀ hi : i < (transmit_graphics image_id width height payload pos_x pos_y).length,
          ((transmit_graphics image_id width height payload pos_x pos_y).get
            ⟨i, hi⟩).more =
          if i + 1 =
            (transmit_graphics image_id width height payload pos_x pos_y).length
          then 0 else 1)) := by
  intro image_id width height pos_x pos_y payload
  constructor
  · intro hle
    rw [transmit_graphics, if_pos hle]
  · intro hgt
    have hne : payload ≠ [] := by
      intro h
      rw [h] at hgt
      simp at hgt
    have hlen : (payload_chunks payload).length = (payload.length + 4095) / 4096 := by
      rw [payload_chunks]
      exact chunks_aux_length payload.length payload (le_refl _) hne
    rw [transmit_graphics, if_neg (by omega)]
    refine ⟨?_, ?_, ?_, ?_⟩
    · rw [List.length_map, List.enum_length, hlen]
    · intro c hc
      obtain ⟨⟨i, ch⟩, hmem, rfl⟩ := List.mem_map.mp hc
      show ch.length ≤ 4096
      have hch : ch ∈ payload_chunks payload := List.snd_mem_of_mem_enum hmem
      rw [payload_chunks] at hch
      exact chunks_aux_le _ _ _ hch
    · have hmp : (((payload_chunks payload).enum.map fun ic =>
          (⟨width, height, image_id, pos_x, pos_y,
            if ic.1 = (payload_chunks payload).length - 1 then 0 else 1,
            ic.2⟩ : TransmitCommand)).map fun c => c.payload) =
          (payload_chunks payload).enum.map Prod.snd := by
        rw [List.map_map]
        rfl
      rw [hmp, List.enum_map_snd, payload_chunks]
      exact chunks_aux_flatten payload.length payload (le_refl _)
    · intro i hi
      have hi' : i < (payload_chunks payload).length := by
        rw [List.length_map, List.enum_length] at hi
        exact hi
      rw [List.get_eq_getElem, List.getElem_map, List.getElem_enum]
      show (if i = (payload_chunks payload).length - 1 then (0 : Nat) else 1) = _
      rw [List.length_map, List.enum_length]
      by_cases hil : i + 1 = (payload_chunks payload).length
      · rw [if_pos (by omega), if_pos hil]
      · rw [if_neg (by omega), if_neg hil]

/-- Claim C5 witness: a 4097-byte payload is split into 2 chunks whose
concatenation restores the payload; a short payload goes out as one command
with the more-flag 0. -/
theorem claim_c5_witness :
    (transmit_graphics 7 10 10 (List.replicate 4097 'A') 0 0).length =
      ((List.replicate 4097 'A').length + 4095) / 4096 ∧
    ((transmit_graphics 7 10 10 (List.replicate 4097 'A') 0 0).map
      (fun c => c.payload)).flatten = List.replicate 4097 'A' ∧
    transmit_graphics 7 10 10 "abc".toList 0 0 =
      [⟨10, 10, 7, 0, 0, 0, "abc".toList⟩] := by
  refine ⟨?_, ?_, ?_⟩
  · exact ((claim_c5_chunking 7 10 10 0 0 (List.replicate 4097 'A')).2
      (by rw [List.length_replicate]; omega)).1
  · exact ((claim_c5_chunking 7 10 10 0 0 (List.replicate 4097 'A')).2
      (by rw [List.length_replicate]; omega)).2.2.1
  · exact (claim_c5_chunking 7 10 10 0 0 "abc".toList).1 (by decide)

end Speedy
